import Mathlib

set_option linter.unusedSectionVars false

/-!
Shallow embedding of the hand-written separate-chaining hash map in
`src/arceos/ulib/axstd/src/hashmap.rs`, together with proofs and refutations
of its specified properties.

Modelling conventions:
* A collision chain `Option<Box<Entry<K, V>>>` (an `Entry` holds `key`,
  `value` and the owning `next` link) is embedded as a `List (K × V)`:
  the head of the list is the head entry of the chain.
* The bucket array `Vec<Option<Box<Entry<K, V>>>>` is a
  `List (List (K × V))`; `self.buckets[index]` becomes `List.getD index []`
  and in-place assignment becomes `List.set`.
* `usize` arithmetic (`%`, `* 3 / 4`, `+ 1`, `- 1`) is `Nat` arithmetic; the
  sizes involved never approach `2 ^ 64`, and `Nat` subtraction only occurs
  where the source decrements a counter it has just observed to be positive
  in the success branch of `remove` (on the buggy paths the source would
  simply wrap, which never happens in the reachable states we consider).
* The hash function `fn hash<T: Hash>` (SipHasher) is modelled as an
  abstract parameter `hash : K → Nat`: the spec treats the digest algorithm
  as a pluggable detail, requiring only determinism and that equal keys get
  equal digests, which any Lean function satisfies. Concrete evaluations
  instantiate `hash` with the identity on `Nat`.
* Methods taking `&mut self` are state-passing functions returning the
  updated table; `get_mut`, which performs no structural write, returns the
  table unchanged alongside the lookup result.
-/

namespace HashVerify

/-- Table state of `HashMap<K, V>`: bucket array, `size` and `capacity`
fields as in the Rust struct. -/
structure HashMap (K V : Type) where
  buckets : List (List (K × V))
  size : Nat
  capacity : Nat
  deriving DecidableEq

variable {K V : Type} [DecidableEq K]

/-- Translation of `HashMap::new`: 16 empty buckets, `size = 0`,
`capacity = 16`. -/
def HashMap.new : HashMap K V :=
  ⟨List.replicate 16 [], 0, 16⟩

/-- Chain walk of `HashMap::get`: return the value of the first entry whose
key equals `key`, else `none`. -/
def chainGet (key : K) : List (K × V) → Option V
  | [] => none
  | (k, w) :: rest => if k = key then some w else chainGet key rest

/-- Translation of `HashMap::get`. -/
def HashMap.get (hash : K → Nat) (m : HashMap K V) (key : K) : Option V :=
  chainGet key (m.buckets.getD (hash key % m.capacity) [])

/-- Chain walk of `HashMap::get_mut`; structurally identical to the walk of
`get` (the source only differs in using `as_mut` references). -/
def chainGetMut (key : K) : List (K × V) → Option V
  | [] => none
  | (k, w) :: rest => if k = key then some w else chainGetMut key rest

/-- Translation of `HashMap::get_mut`. The source takes `&mut self` but
performs no structural write, so the embedding returns the table unchanged
together with the value the returned reference points at. -/
def HashMap.get_mut (hash : K → Nat) (m : HashMap K V) (key : K) :
    Option V × HashMap K V :=
  (chainGetMut key (m.buckets.getD (hash key % m.capacity) []), m)

/-- The `while let` loop of `HashMap::insert` (lines 79–87 of the source).
State: `prev` is the single entry currently owned by the `prev` variable
(its `next` has been `take`n), the list argument is the chain hanging off
`current`.  On a non-matching entry the source executes
`prev = Some(boxed_entry)`, which *drops* the entry previously held in
`prev` — hence the recursive call simply replaces the `prev` argument.  On
a match the source writes the new value into `boxed_entry` via
`mem::replace`, takes its `next` into `current` and breaks, after which
`boxed_entry` — the matched entry, now holding the new value — is dropped;
so the returned triple is (old value, prev, successor chain) and the
matched entry disappears. -/
def insertLoop (key : K) (prev : Option (K × V)) :
    List (K × V) → Option V × Option (K × V) × List (K × V)
  | [] => (none, prev, [])
  | (k, w) :: rest =>
    if k = key then (some w, prev, rest)
    else insertLoop key (some (k, w)) rest

/-- Chain rebuild after the walk (lines 90–95 / 160–165): if `prev` holds an
entry `p`, set `p.next = current` and make `p` the head, else the head is
`current`. -/
def rebuild : Option (K × V) → List (K × V) → List (K × V)
  | some p, cur => p :: cur
  | none, cur => cur

/-- Inner `while let` of `HashMap::resize` (lines 179–187): move each entry
of one drained chain into the new bucket array, prepending it at index
`hash(key) % new_capacity`. -/
def moveChain (hash : K → Nat) (newCap : Nat) :
    List (K × V) → List (List (K × V)) → List (List (K × V))
  | [], nb => nb
  | e :: rest, nb =>
    moveChain hash newCap rest
      (nb.set (hash e.1 % newCap) (e :: nb.getD (hash e.1 % newCap) []))

/-- Translation of `HashMap::resize`: double the capacity, drain every old
bucket in index order, moving the entries as `moveChain` does; `size` is not
touched. -/
def HashMap.resize (hash : K → Nat) (m : HashMap K V) : HashMap K V :=
  ⟨m.buckets.foldl (fun nb chain => moveChain hash (m.capacity * 2) chain nb)
      (List.replicate (m.capacity * 2) []),
    m.size, m.capacity * 2⟩

/-- Body of `HashMap::insert` after the load-factor check (lines 71–107):
walk the target chain with `insertLoop`, rebuild it, and either store the
rebuilt chain (key found; the matched entry was dropped by the loop) or
prepend a fresh entry and increment `size` (key absent). -/
def HashMap.insertPost (hash : K → Nat) (m1 : HashMap K V) (key : K)
    (value : V) : Option V × HashMap K V :=
  match insertLoop key none
      (m1.buckets.getD (hash key % m1.capacity) []) with
  | (some w, p, cur) =>
    (some w, ⟨m1.buckets.set (hash key % m1.capacity) (rebuild p cur),
      m1.size, m1.capacity⟩)
  | (none, p, cur) =>
    (none, ⟨m1.buckets.set (hash key % m1.capacity)
        ((key, value) :: rebuild p cur),
      m1.size + 1, m1.capacity⟩)

/-- Translation of `HashMap::insert`: resize when the pre-insert `size`
reaches `capacity * 3 / 4`, then run the placement body on the (possibly
grown) table. -/
def HashMap.insert (hash : K → Nat) (m : HashMap K V) (key : K)
    (value : V) : Option V × HashMap K V :=
  HashMap.insertPost hash
    (if m.size ≥ m.capacity * 3 / 4 then m.resize hash else m) key value

/-- The `while let` loop of `HashMap::remove` (lines 148–157); identical in
structure to `insertLoop`: `prev` keeps only the most recently visited
non-matching entry (dropping its predecessor), and on a match the value is
moved out, the successor chain is returned and the matched node dropped. -/
def removeLoop (key : K) (prev : Option (K × V)) :
    List (K × V) → Option V × Option (K × V) × List (K × V)
  | [] => (none, prev, [])
  | (k, w) :: rest =>
    if k = key then (some w, prev, rest)
    else removeLoop key (some (k, w)) rest

/-- Translation of `HashMap::remove`: walk, rebuild, store the rebuilt
chain; `size` is decremented exactly when the key was found. -/
def HashMap.remove (hash : K → Nat) (m : HashMap K V) (key : K) :
    Option V × HashMap K V :=
  match removeLoop key none
      (m.buckets.getD (hash key % m.capacity) []) with
  | (some w, p, cur) =>
    (some w, ⟨m.buckets.set (hash key % m.capacity) (rebuild p cur),
      m.size - 1, m.capacity⟩)
  | (none, p, cur) =>
    (none, ⟨m.buckets.set (hash key % m.capacity) (rebuild p cur),
      m.size, m.capacity⟩)

/-- Translation of `HashMap::len`. -/
def HashMap.len (m : HashMap K V) : Nat := m.size

/-- Translation of `HashMap::is_empty`. -/
def HashMap.isEmpty (m : HashMap K V) : Bool := m.size == 0

/-- Iterator state of `Iter<'a, K, V>`: the source keeps `bucket_idx` and
`current`; we keep the buckets not yet reached (those from `bucket_idx`
onward) and the remaining chain hanging off `current`. -/
def HashMap.iter (m : HashMap K V) : List (List (K × V)) × List (K × V) :=
  (m.buckets, [])

/-- Translation of `Iter::next` (lines 218–235): if `current` has an entry,
yield it and advance along the chain; otherwise scan for the next bucket,
returning `none` once `bucket_idx` passes the end of the array. -/
def iterNext :
    List (List (K × V)) → List (K × V) →
      Option ((K × V) × (List (List (K × V)) × List (K × V)))
  | bs, e :: rest => some (e, (bs, rest))
  | [], [] => none
  | b :: bs, [] => iterNext bs b

/-- Exhaustive run of the iterator: the list of all items yielded by
repeated `iterNext` calls until it returns `none` (the unfolding of the
caller's `for` loop). -/
def iterRun (bs : List (List (K × V))) (cur : List (K × V)) : List (K × V) :=
  match bs, cur with
  | bs, e :: rest => e :: iterRun bs rest
  | [], [] => []
  | b :: bs, [] => iterRun bs b
termination_by (bs.length, cur.length)

/-- All live entries of the table, in bucket-index order and head-first
chain order. -/
def HashMap.entries (m : HashMap K V) : List (K × V) := m.buckets.flatten

/-- Operations of the public mutating API, used to quantify over every table
reachable from `HashMap::new`. -/
inductive Op (K V : Type) where
  | ins : K → V → Op K V
  | rem : K → Op K V
  deriving DecidableEq

/-- Apply one mutating operation, keeping the table and discarding the
returned value. -/
def applyOp (hash : K → Nat) (m : HashMap K V) : Op K V → HashMap K V
  | .ins k v => (m.insert hash k v).2
  | .rem k => (m.remove hash k).2

/-- Run a sequence of operations from the freshly constructed table. -/
def runOps (hash : K → Nat) (ops : List (Op K V)) : HashMap K V :=
  ops.foldl (applyOp hash) HashMap.new

/-- Concrete hash used to evaluate the model: the identity digest on `Nat`
keys (the spec treats the digest algorithm as pluggable; keys `0`, `16`,
`32` then collide at bucket `0` of a 16-slot table exactly as any trio of
SipHash-colliding keys would). -/
def hashId : Nat → Nat := fun n => n

/-- Placement invariant: every entry of bucket `i` hashes to bucket `i`
under the current capacity (spec invariant 3). -/
def Placed (hash : K → Nat) (m : HashMap K V) : Prop :=
  ∀ i : Nat, ∀ e ∈ m.buckets.getD i [], hash e.1 % m.capacity = i

/-- Structural invariant of every table reachable from `HashMap.new`:
the bucket array has length `capacity`, the capacity is `16 * 2 ^ n` for
some `n`, entries sit in the bucket their hash selects, and the stored
keys are globally duplicate-free.  (The spec's `size`-equals-entry-count
invariant is deliberately not included: the code does not maintain it.) -/
def Inv (hash : K → Nat) (m : HashMap K V) : Prop :=
  m.buckets.length = m.capacity ∧ (∃ n : Nat, m.capacity = 16 * 2 ^ n) ∧
    Placed hash m ∧ (m.entries.map Prod.fst).Nodup

/-! General list lemmas used to reason about the bucket array. -/

theorem getD_set_self {α : Type} (l : List α) (i : Nat) (x d : α)
    (h : i < l.length) : (l.set i x).getD i d = x := by
  induction l generalizing i with
  | nil => simp at h
  | cons b bs ih =>
    cases i with
    | zero => simp
    | succ j =>
      simp only [List.set_cons_succ, List.getD_cons_succ]
      exact ih j (by simpa using h)

theorem getD_set_ne {α : Type} (l : List α) (i j : Nat) (x d : α)
    (h : i ≠ j) : (l.set i x).getD j d = l.getD j d := by
  induction l generalizing i j with
  | nil => simp
  | cons b bs ih =>
    cases i with
    | zero =>
      cases j with
      | zero => exact absurd rfl h
      | succ j2 => simp
    | succ i2 =>
      cases j with
      | zero => simp
      | succ j2 =>
        simp only [List.set_cons_succ, List.getD_cons_succ]
        exact ih i2 j2 (fun hc => h (by rw [hc]))

theorem getD_replicate_self {α : Type} (n i : Nat) (x : α) :
    (List.replicate n x).getD i x = x := by
  induction n generalizing i with
  | zero => simp
  | succ n ih =>
    cases i with
    | zero => simp [List.replicate]
    | succ j => simp [List.replicate, ih]

theorem mem_getD_flatten {α : Type} {e : α} (l : List (List α)) (i : Nat)
    (h : e ∈ l.getD i []) : e ∈ l.flatten := by
  induction l generalizing i with
  | nil => simp at h
  | cons b bs ih =>
    cases i with
    | zero =>
      simp only [List.flatten_cons, List.mem_append]
      exact Or.inl (by simpa using h)
    | succ j =>
      simp only [List.flatten_cons, List.mem_append]
      exact Or.inr (ih j (by simpa using h))

theorem mem_flatten_getD {α : Type} {e : α} (l : List (List α))
    (h : e ∈ l.flatten) : ∃ i, i < l.length ∧ e ∈ l.getD i [] := by
  induction l with
  | nil => simp at h
  | cons b bs ih =>
    rw [List.flatten_cons] at h
    rcases List.mem_append.1 h with hb | hf
    · exact ⟨0, by simp, by simpa using hb⟩
    · rcases ih hf with ⟨i, hi, hm⟩
      exact ⟨i + 1, by simpa using hi, by simpa using hm⟩

theorem getD_sublist_flatten {α : Type} (l : List (List α)) (i : Nat) :
    (l.getD i []).Sublist l.flatten := by
  induction l generalizing i with
  | nil => simp
  | cons b bs ih =>
    cases i with
    | zero =>
      simp only [List.getD_cons_zero, List.flatten_cons]
      exact List.sublist_append_left b bs.flatten
    | succ j =>
      simp only [List.getD_cons_succ, List.flatten_cons]
      exact (ih j).trans (List.sublist_append_right b bs.flatten)

theorem flatten_replicate_nil {α : Type} (n : Nat) :
    (List.replicate n ([] : List α)).flatten = [] := by
  induction n with
  | zero => rfl
  | succ n ih => simp [List.replicate, ih]

theorem append_swap_perm {α : Type} (a b c : List α) :
    (a ++ (b ++ c)).Perm (b ++ (a ++ c)) := by
  have h1 : a ++ (b ++ c) = (a ++ b) ++ c := by rw [List.append_assoc]
  have h2 : (b ++ a) ++ c = b ++ (a ++ c) := by rw [List.append_assoc]
  rw [h1, ← h2]
  exact List.perm_append_comm.append_right c

theorem flatten_set_perm {α : Type} (l : List (List α)) (i : Nat)
    (c : List α) (h : i < l.length) :
    ((l.set i c).flatten).Perm (c ++ (l.set i ([] : List α)).flatten) := by
  induction l generalizing i with
  | nil => simp at h
  | cons b bs ih =>
    cases i with
    | zero => simp [List.flatten_cons]
    | succ j =>
      simp only [List.set_cons_succ, List.flatten_cons]
      have hj : j < bs.length := by simpa using h
      exact (List.Perm.append_left b (ih j hj)).trans
        (append_swap_perm b c ((bs.set j []).flatten))

theorem flatten_perm_getD_set_nil {α : Type} (l : List (List α)) (i : Nat)
    (h : i < l.length) :
    l.flatten.Perm (l.getD i [] ++ (l.set i ([] : List α)).flatten) := by
  induction l generalizing i with
  | nil => simp at h
  | cons b bs ih =>
    cases i with
    | zero => simp [List.flatten_cons]
    | succ j =>
      have hj : j < bs.length := by simpa using h
      simp only [List.getD_cons_succ, List.set_cons_succ, List.flatten_cons]
      exact (List.Perm.append_left b (ih j hj)).trans
        (append_swap_perm b (bs.getD j []) ((bs.set j []).flatten))

/-! Lemmas about the chain walks of `insert`, `remove`, `get`, `get_mut`. -/

theorem insertLoop_eq_removeLoop (key : K) (prev : Option (K × V))
    (c : List (K × V)) : insertLoop key prev c = removeLoop key prev c := by
  induction c generalizing prev with
  | nil => rfl
  | cons e rest ih =>
    obtain ⟨k, w⟩ := e
    by_cases hk : k = key
    · simp [insertLoop, removeLoop, hk]
    · simp [insertLoop, removeLoop, hk, ih]

theorem removeLoop_fst (key : K) (prev : Option (K × V))
    (c : List (K × V)) : (removeLoop key prev c).1 = chainGet key c := by
  induction c generalizing prev with
  | nil => rfl
  | cons e rest ih =>
    obtain ⟨k, w⟩ := e
    by_cases hk : k = key
    · simp [removeLoop, chainGet, hk]
    · simp [removeLoop, chainGet, hk, ih]

theorem rebuild_removeLoop_sublist (key : K) (prev : Option (K × V))
    (c : List (K × V)) :
    (rebuild (removeLoop key prev c).2.1
      (removeLoop key prev c).2.2).Sublist (rebuild prev c) := by
  induction c generalizing prev with
  | nil =>
    simp only [removeLoop]
    exact List.Sublist.refl _
  | cons e rest ih =>
    obtain ⟨k, w⟩ := e
    by_cases hk : k = key
    · simp only [removeLoop, if_pos hk]
      cases prev with
      | none => exact List.sublist_cons_self _ _
      | some p => exact List.cons_sublist_cons.2 (List.sublist_cons_self _ _)
    · simp only [removeLoop, if_neg hk]
      refine (ih (some (k, w))).trans ?_
      cases prev with
      | none => exact List.Sublist.refl _
      | some p => exact List.sublist_cons_self _ _

theorem chainGet_eq_none_iff (key : K) (c : List (K × V)) :
    chainGet key c = none ↔ key ∉ c.map Prod.fst := by
  induction c with
  | nil => simp [chainGet]
  | cons e rest ih =>
    obtain ⟨k, w⟩ := e
    by_cases hk : k = key
    · simp [chainGet, hk]
    · simp only [chainGet, if_neg hk, List.map_cons, List.mem_cons, ih]
      constructor
      · rintro hni (hkey | hmem)
        · exact hk hkey.symm
        · exact hni hmem
      · intro hni hmem
        exact hni (Or.inr hmem)

theorem chainGet_eq_some_mem {key : K} {v : V} {c : List (K × V)}
    (h : chainGet key c = some v) : (key, v) ∈ c := by
  induction c with
  | nil => simp [chainGet] at h
  | cons e rest ih =>
    obtain ⟨k, w⟩ := e
    by_cases hk : k = key
    · subst hk
      simp [chainGet] at h
      subst h
      exact List.mem_cons_self _ _
    · simp only [chainGet, if_neg hk] at h
      exact List.mem_cons_of_mem _ (ih h)

theorem chainGet_of_mem_nodup {key : K} {v : V} {c : List (K × V)}
    (hnd : (c.map Prod.fst).Nodup) (hm : (key, v) ∈ c) :
    chainGet key c = some v := by
  induction c with
  | nil => simp at hm
  | cons e rest ih =>
    obtain ⟨k, w⟩ := e
    simp only [List.map_cons, List.nodup_cons] at hnd
    rcases List.mem_cons.1 hm with he | hm2
    · obtain ⟨hk, hv⟩ := Prod.mk.injEq .. ▸ he
      simp [chainGet, hk.symm, hv]
    · by_cases hk : k = key
      · exfalso
        subst hk
        exact hnd.1 (List.mem_map.2 ⟨(k, v), hm2, rfl⟩)
      · simp only [chainGet, if_neg hk]
        exact ih hnd.2 hm2

theorem chainGetMut_eq_chainGet (key : K) (c : List (K × V)) :
    chainGetMut key c = chainGet key c := by
  induction c with
  | nil => rfl
  | cons e rest ih =>
    obtain ⟨k, w⟩ := e
    simp [chainGetMut, chainGet, ih]

theorem chainGet_eq_find (key : K) (c : List (K × V)) :
    chainGet key c =
      (c.find? (fun e => decide (e.1 = key))).map Prod.snd := by
  induction c with
  | nil => rfl
  | cons e rest ih =>
    obtain ⟨k, w⟩ := e
    by_cases hk : k = key
    · simp [chainGet, hk]
    · simp [chainGet, hk, ih]

/-! Preservation of the structural invariant `Inv` along every operation. -/

theorem capacity_pos {hash : K → Nat} {m : HashMap K V} (h : Inv hash m) :
    0 < m.capacity := by
  obtain ⟨-, ⟨n, hn⟩, -, -⟩ := h
  rw [hn]
  positivity

theorem inv_new (hash : K → Nat) : Inv hash (HashMap.new : HashMap K V) := by
  refine ⟨by simp [HashMap.new], ⟨0, by norm_num [HashMap.new]⟩, ?_, ?_⟩
  · intro i e he
    rw [show (HashMap.new : HashMap K V).buckets = List.replicate 16 []
        from rfl, getD_replicate_self] at he
    simp at he
  · rw [show (HashMap.new : HashMap K V).entries =
        (List.replicate 16 []).flatten from rfl, flatten_replicate_nil]
    simp

theorem inv_replace_bucket {hash : K → Nat} {m : HashMap K V}
    (hinv : Inv hash m) (i : Nat) (hi : i < m.buckets.length)
    {c2 : List (K × V)} (hsub : c2.Sublist (m.buckets.getD i []))
    (sz : Nat) : Inv hash ⟨m.buckets.set i c2, sz, m.capacity⟩ := by
  obtain ⟨hlen, hpow, hplaced, hnd⟩ := hinv
  refine ⟨by simpa [List.length_set] using hlen, hpow, ?_, ?_⟩
  · intro j e he
    by_cases hij : i = j
    · subst hij
      rw [getD_set_self _ _ _ _ hi] at he
      exact hplaced i e (hsub.subset he)
    · rw [getD_set_ne _ _ _ _ _ hij] at he
      exact hplaced j e he
  · show (((m.buckets.set i c2).flatten).map Prod.fst).Nodup
    simp only [HashMap.entries] at hnd
    have hperm := flatten_set_perm m.buckets i c2 hi
    have hperm0 := flatten_perm_getD_set_nil m.buckets i hi
    have hnd2 := (hperm0.map Prod.fst).nodup_iff.1 hnd
    refine (hperm.map Prod.fst).nodup_iff.2 ?_
    exact List.Nodup.sublist
      (List.Sublist.map Prod.fst (hsub.append_right _)) hnd2

theorem inv_insert_new_key {hash : K → Nat} {m : HashMap K V}
    (hinv : Inv hash m) {key : K} (v : V) {i : Nat}
    (hkey : hash key % m.capacity = i) (hi : i < m.buckets.length)
    {c2 : List (K × V)} (hsub : c2.Sublist (m.buckets.getD i []))
    (hmiss : chainGet key (m.buckets.getD i []) = none) (sz : Nat) :
    Inv hash ⟨m.buckets.set i ((key, v) :: c2), sz, m.capacity⟩ := by
  obtain ⟨hlen, hpow, hplaced, hnd⟩ := hinv
  refine ⟨by simpa [List.length_set] using hlen, hpow, ?_, ?_⟩
  · intro j e he
    by_cases hij : i = j
    · subst hij
      rw [getD_set_self _ _ _ _ hi] at he
      rcases List.mem_cons.1 he with rfl | he2
      · exact hkey
      · exact hplaced i e (hsub.subset he2)
    · rw [getD_set_ne _ _ _ _ _ hij] at he
      exact hplaced j e he
  · show (((m.buckets.set i ((key, v) :: c2)).flatten).map Prod.fst).Nodup
    simp only [HashMap.entries] at hnd
    have hperm := flatten_set_perm m.buckets i ((key, v) :: c2) hi
    refine (hperm.map Prod.fst).nodup_iff.2 ?_
    rw [List.cons_append, List.map_cons, List.nodup_cons]
    constructor
    · intro hmem
      rcases List.mem_map.1 hmem with ⟨e, hme, hfst⟩
      rcases List.mem_append.1 hme with hc | hx
      · refine (chainGet_eq_none_iff key _).1 hmiss ?_
        exact List.mem_map.2 ⟨e, hsub.subset hc, hfst⟩
      · rcases mem_flatten_getD _ hx with ⟨j, hj, hmj⟩
        by_cases hij : i = j
        · subst hij
          rw [getD_set_self _ _ _ _ hi] at hmj
          simp at hmj
        · rw [getD_set_ne _ _ _ _ _ hij] at hmj
          have hpj := hplaced j e hmj
          rw [hfst, hkey] at hpj
          exact hij hpj
    · have hperm0 := flatten_perm_getD_set_nil m.buckets i hi
      have hnd2 := (hperm0.map Prod.fst).nodup_iff.1 hnd
      exact List.Nodup.sublist
        (List.Sublist.map Prod.fst (hsub.append_right _)) hnd2

theorem moveChain_length (hash : K → Nat) (nc : Nat) (c : List (K × V))
    (nb : List (List (K × V))) :
    (moveChain hash nc c nb).length = nb.length := by
  induction c generalizing nb with
  | nil => rfl
  | cons e rest ih => simp [moveChain, ih, List.length_set]

theorem moveChain_flatten_perm (hash : K → Nat) (nc : Nat)
    (c : List (K × V)) (nb : List (List (K × V)))
    (hlen : nb.length = nc) (hnc : 0 < nc) :
    ((moveChain hash nc c nb).flatten).Perm (c ++ nb.flatten) := by
  induction c generalizing nb with
  | nil => simp [moveChain]
  | cons e rest ih =>
    have hidx : hash e.1 % nc < nb.length := by
      rw [hlen]
      exact Nat.mod_lt _ hnc
    have hstep : ((nb.set (hash e.1 % nc)
        (e :: nb.getD (hash e.1 % nc) [])).flatten).Perm
          (e :: nb.flatten) := by
      refine (flatten_set_perm _ _ _ hidx).trans ?_
      rw [List.cons_append]
      exact ((flatten_perm_getD_set_nil nb _ hidx).symm.cons e)
    simp only [moveChain]
    have hlen2 : (nb.set (hash e.1 % nc)
        (e :: nb.getD (hash e.1 % nc) [])).length = nc := by
      rw [List.length_set]
      exact hlen
    refine (ih _ hlen2).trans ?_
    rw [List.cons_append]
    exact (List.Perm.append_left rest hstep).trans List.perm_middle

theorem moveChain_placed (hash : K → Nat) (nc : Nat) (c : List (K × V))
    (nb : List (List (K × V))) (hlen : nb.length = nc) (hnc : 0 < nc)
    (hq : ∀ j, ∀ e ∈ nb.getD j [], hash e.1 % nc = j) :
    ∀ j, ∀ e ∈ (moveChain hash nc c nb).getD j [], hash e.1 % nc = j := by
  induction c generalizing nb with
  | nil => simpa [moveChain] using hq
  | cons e rest ih =>
    simp only [moveChain]
    refine ih _ (by rw [List.length_set]; exact hlen) ?_
    intro j f hf
    by_cases hij : hash e.1 % nc = j
    · rw [← hij] at hf ⊢
      rw [getD_set_self _ _ _ _ (by rw [hlen]; exact Nat.mod_lt _ hnc)]
        at hf
      rcases List.mem_cons.1 hf with rfl | hf2
      · rfl
      · exact hq _ f hf2
    · rw [getD_set_ne _ _ _ _ _ hij] at hf
      exact hq j f hf

theorem foldl_moveChain_length (hash : K → Nat) (nc : Nat)
    (bs nb : List (List (K × V))) :
    (bs.foldl (fun acc chain => moveChain hash nc chain acc) nb).length =
      nb.length := by
  induction bs generalizing nb with
  | nil => rfl
  | cons b bs ih =>
    rw [List.foldl_cons, ih, moveChain_length]

theorem foldl_moveChain_flatten_perm (hash : K → Nat) (nc : Nat)
    (bs nb : List (List (K × V))) (hlen : nb.length = nc) (hnc : 0 < nc) :
    ((bs.foldl (fun acc chain => moveChain hash nc chain acc)
        nb).flatten).Perm (bs.flatten ++ nb.flatten) := by
  induction bs generalizing nb with
  | nil => simp
  | cons b bs ih =>
    rw [List.foldl_cons]
    have hl2 : (moveChain hash nc b nb).length = nc := by
      rw [moveChain_length]
      exact hlen
    refine (ih _ hl2).trans ?_
    refine (List.Perm.append_left bs.flatten
      (moveChain_flatten_perm hash nc b nb hlen hnc)).trans ?_
    rw [List.flatten_cons, List.append_assoc]
    exact append_swap_perm bs.flatten b nb.flatten

theorem foldl_moveChain_placed (hash : K → Nat) (nc : Nat)
    (bs nb : List (List (K × V))) (hlen : nb.length = nc) (hnc : 0 < nc)
    (hq : ∀ j, ∀ e ∈ nb.getD j [], hash e.1 % nc = j) :
    ∀ j, ∀ e ∈ (bs.foldl (fun acc chain => moveChain hash nc chain acc)
      nb).getD j [], hash e.1 % nc = j := by
  induction bs generalizing nb with
  | nil => simpa using hq
  | cons b bs ih =>
    rw [List.foldl_cons]
    exact ih _ (by rw [moveChain_length]; exact hlen)
      (moveChain_placed hash nc b nb hlen hnc hq)

theorem resize_entries_perm (hash : K → Nat) (m : HashMap K V)
    (hcap : 0 < m.capacity) :
    ((m.resize hash).entries).Perm m.entries := by
  have h := foldl_moveChain_flatten_perm hash (m.capacity * 2) m.buckets
    (List.replicate (m.capacity * 2) []) (by simp) (by omega)
  simp only [HashMap.resize, HashMap.entries]
  refine h.trans ?_
  rw [flatten_replicate_nil, List.append_nil]

theorem inv_resize {hash : K → Nat} {m : HashMap K V} (hinv : Inv hash m) :
    Inv hash (m.resize hash) := by
  have hcap : 0 < m.capacity := capacity_pos hinv
  obtain ⟨hlen, ⟨n, hn⟩, hplaced, hnd⟩ := hinv
  refine ⟨?_, ⟨n + 1, ?_⟩, ?_, ?_⟩
  · simp only [HashMap.resize]
    rw [foldl_moveChain_length, List.length_replicate]
  · simp only [HashMap.resize]
    rw [hn]
    ring
  · intro j e he
    simp only [HashMap.resize] at he ⊢
    exact foldl_moveChain_placed hash (m.capacity * 2) m.buckets
      (List.replicate (m.capacity * 2) []) (by simp) (by omega)
      (fun j e he => by rw [getD_replicate_self] at he; simp at he)
      j e he
  · exact ((resize_entries_perm hash m hcap).map
      Prod.fst).nodup_iff.2 hnd

theorem inv_insertPost {hash : K → Nat} {m1 : HashMap K V}
    (hinv1 : Inv hash m1) (key : K) (v : V) :
    Inv hash (HashMap.insertPost hash m1 key v).2 := by
  have hcap : 0 < m1.capacity := capacity_pos hinv1
  have hidx : hash key % m1.capacity < m1.buckets.length := by
    rw [hinv1.1]
    exact Nat.mod_lt _ hcap
  rcases hr : insertLoop key none
    (m1.buckets.getD (hash key % m1.capacity) []) with ⟨o, p, cur⟩
  have hsub : (rebuild p cur).Sublist
      (m1.buckets.getD (hash key % m1.capacity) []) := by
    have h := rebuild_removeLoop_sublist key none
      (m1.buckets.getD (hash key % m1.capacity) [])
    rw [← insertLoop_eq_removeLoop, hr] at h
    exact h
  cases o with
  | some w =>
    simp only [HashMap.insertPost, hr]
    exact inv_replace_bucket hinv1 _ hidx hsub _
  | none =>
    simp only [HashMap.insertPost, hr]
    have hmiss : chainGet key
        (m1.buckets.getD (hash key % m1.capacity) []) = none := by
      have h := removeLoop_fst key none
        (m1.buckets.getD (hash key % m1.capacity) [])
      rw [← insertLoop_eq_removeLoop, hr] at h
      exact h.symm
    exact inv_insert_new_key hinv1 v rfl hidx hsub hmiss _

theorem inv_insert {hash : K → Nat} {m : HashMap K V} (hinv : Inv hash m)
    (key : K) (v : V) : Inv hash (m.insert hash key v).2 := by
  rw [HashMap.insert]
  split
  · exact inv_insertPost (inv_resize hinv) key v
  · exact inv_insertPost hinv key v

theorem inv_remove {hash : K → Nat} {m : HashMap K V} (hinv : Inv hash m)
    (key : K) : Inv hash (m.remove hash key).2 := by
  have hcap : 0 < m.capacity := capacity_pos hinv
  have hidx : hash key % m.capacity < m.buckets.length := by
    rw [hinv.1]
    exact Nat.mod_lt _ hcap
  rcases hr : removeLoop key none
    (m.buckets.getD (hash key % m.capacity) []) with ⟨o, p, cur⟩
  have hsub : (rebuild p cur).Sublist
      (m.buckets.getD (hash key % m.capacity) []) := by
    have h := rebuild_removeLoop_sublist key none
      (m.buckets.getD (hash key % m.capacity) [])
    rw [hr] at h
    exact h
  cases o with
  | some w =>
    simp only [HashMap.remove, hr]
    exact inv_replace_bucket hinv _ hidx hsub _
  | none =>
    simp only [HashMap.remove, hr]
    exact inv_replace_bucket hinv _ hidx hsub _

theorem inv_applyOp {hash : K → Nat} {m : HashMap K V} (hinv : Inv hash m)
    (op : Op K V) : Inv hash (applyOp hash m op) := by
  cases op with
  | ins k v => exact inv_insert hinv k v
  | rem k => exact inv_remove hinv k

theorem inv_foldl {hash : K → Nat} (ops : List (Op K V))
    {m : HashMap K V} (hinv : Inv hash m) :
    Inv hash (ops.foldl (applyOp hash) m) := by
  induction ops generalizing m with
  | nil => exact hinv
  | cons op ops ih => exact ih (inv_applyOp hinv op)

theorem inv_runOps (hash : K → Nat) (ops : List (Op K V)) :
    Inv hash (runOps hash ops) :=
  inv_foldl ops (inv_new hash)

/-! Characterisation of `get` on tables satisfying the invariant. -/

theorem get_some_iff_mem {hash : K → Nat} {m : HashMap K V}
    (hinv : Inv hash m) (key : K) (v : V) :
    m.get hash key = some v ↔ (key, v) ∈ m.entries := by
  obtain ⟨hlen, hpow, hplaced, hnd⟩ := hinv
  constructor
  · intro h
    rw [HashMap.get] at h
    exact mem_getD_flatten _ _ (chainGet_eq_some_mem h)
  · intro hmem
    rcases mem_flatten_getD _ hmem with ⟨j, hj, hmj⟩
    have hj2 : hash key % m.capacity = j := hplaced j _ hmj
    rw [HashMap.get, hj2]
    refine chainGet_of_mem_nodup ?_ hmj
    exact List.Nodup.sublist
      (List.Sublist.map Prod.fst (getD_sublist_flatten _ j))
      (by simpa [HashMap.entries] using hnd)

theorem get_congr {hash : K → Nat} {m m2 : HashMap K V}
    (h1 : Inv hash m) (h2 : Inv hash m2)
    (hperm : m.entries.Perm m2.entries) (key : K) :
    m.get hash key = m2.get hash key := by
  cases hg : m2.get hash key with
  | some v =>
    exact (get_some_iff_mem h1 key v).2
      (hperm.mem_iff.2 ((get_some_iff_mem h2 key v).1 hg))
  | none =>
    cases hg1 : m.get hash key with
    | none => rfl
    | some v =>
      have hc := (get_some_iff_mem h2 key v).2
        (hperm.mem_iff.1 ((get_some_iff_mem h1 key v).1 hg1))
      rw [hg] at hc
      exact absurd hc (by simp)

/-- Claim C1: the claim states that inserting an already-present key
replaces that entry's value in place (so the entry survives and a later
`get` sees the new value) and leaves the chain otherwise unchanged.  The
code instead drops the matched entry during the chain walk: after
`insert 0 1; insert 0 2` the second call does return the old value `1` and
leaves `len` at `1`, but the pair is gone — `get 0` yields `none` and the
table holds no entries at all. -/
theorem c1_insert_update_drops_entry :
    (((HashMap.new : HashMap Nat Nat).insert hashId 0 1).2.insert hashId
        0 2).1 = some 1 ∧
      ((((HashMap.new : HashMap Nat Nat).insert hashId 0 1).2.insert hashId
          0 2).2).len = 1 ∧
      ((((HashMap.new : HashMap Nat Nat).insert hashId 0 1).2.insert hashId
          0 2).2).get hashId 0 = none ∧
      ((((HashMap.new : HashMap Nat Nat).insert hashId 0 1).2.insert hashId
          0 2).2).entries = [] := by
  decide

/-- Claim C2: the round-trip claim demands `get K = V` after `insert K V`
with no later `remove K`.  Two refutations by evaluation: re-inserting key
`0` makes `get 0` come back `none` (the updated entry is dropped), and a
third colliding insert (keys `0`, `16`, `32` share bucket `0`) silently
drops the entry for key `16` even though only distinct keys were
inserted and no resize occurred. -/
theorem c2_roundtrip_fails :
    (runOps hashId [Op.ins 0 1, Op.ins 0 2]).get hashId 0 = none ∧
      (runOps hashId [Op.ins 0 10, Op.ins 16 20, Op.ins 32 30]).get hashId
        16 = none := by
  decide

/-- Claim C3: removing an absent key must leave the table untouched.  With
colliding keys `0` and `16` in bucket `0`, `remove 32` (also bucket `0`,
not present) returns `none` and leaves `len` at `2` as claimed, but the
non-destructive walk loses the head entry: key `16` was retrievable before
the call and is gone afterwards. -/
theorem c3_remove_miss_loses_entry :
    ((runOps hashId [Op.ins 0 10, Op.ins 16 20]).remove hashId 32).1 =
        none ∧
      ((runOps hashId [Op.ins 0 10, Op.ins 16 20]).remove hashId
          32).2.len = 2 ∧
      (runOps hashId [Op.ins 0 10, Op.ins 16 20]).get hashId 16 =
        some 20 ∧
      ((runOps hashId [Op.ins 0 10, Op.ins 16 20]).remove hashId
          32).2.get hashId 16 = none := by
  decide

/-- Claim C4: the claim asserts `size` always equals the number of live
entries over all chains.  After `insert 0 1; insert 0 2` the `size` field
is `1` while every chain is empty: the update path drops the matched entry
without adjusting `size`. -/
theorem c4_size_entry_count_mismatch :
    (runOps hashId [Op.ins 0 1, Op.ins 0 2]).size = 1 ∧
      (runOps hashId [Op.ins 0 1, Op.ins 0 2]).entries.length = 0 := by
  decide

/-! Frame and capacity helper lemmas for `insertPost` and `remove`. -/

theorem insertPost_capacity (hash : K → Nat) (m1 : HashMap K V) (k : K)
    (v : V) : (HashMap.insertPost hash m1 k v).2.capacity = m1.capacity := by
  rcases hr : insertLoop k none
    (m1.buckets.getD (hash k % m1.capacity) []) with ⟨o, p, cur⟩
  cases o <;> simp only [HashMap.insertPost, hr]

theorem insertPost_getD_ne (hash : K → Nat) (m1 : HashMap K V) (k : K)
    (v : V) (j : Nat) (hj : j ≠ hash k % m1.capacity) :
    (HashMap.insertPost hash m1 k v).2.buckets.getD j [] =
      m1.buckets.getD j [] := by
  rcases hr : insertLoop k none
    (m1.buckets.getD (hash k % m1.capacity) []) with ⟨o, p, cur⟩
  cases o <;> simp only [HashMap.insertPost, hr] <;>
    exact getD_set_ne _ _ _ _ _ (fun h => hj h.symm)

theorem remove_capacity (hash : K → Nat) (m : HashMap K V) (k : K) :
    (m.remove hash k).2.capacity = m.capacity := by
  rcases hr : removeLoop k none
    (m.buckets.getD (hash k % m.capacity) []) with ⟨o, p, cur⟩
  cases o <;> simp only [HashMap.remove, hr]

theorem remove_getD_ne (hash : K → Nat) (m : HashMap K V) (k : K)
    (j : Nat) (hj : j ≠ hash k % m.capacity) :
    (m.remove hash k).2.buckets.getD j [] = m.buckets.getD j [] := by
  rcases hr : removeLoop k none
    (m.buckets.getD (hash k % m.capacity) []) with ⟨o, p, cur⟩
  cases o <;> simp only [HashMap.remove, hr] <;>
    exact getD_set_ne _ _ _ _ _ (fun h => hj h.symm)

/-! Lemmas about the iterator. -/

theorem iterRun_step (bs : List (List (K × V))) (cur : List (K × V)) :
    iterRun bs cur = (match iterNext bs cur with
      | none => []
      | some (e, s) => e :: iterRun s.1 s.2) := by
  induction bs generalizing cur with
  | nil => cases cur <;> simp [iterRun, iterNext]
  | cons b bs ih =>
    cases cur with
    | cons e rest => simp [iterRun, iterNext]
    | nil =>
      have h1 : iterRun (b :: bs) ([] : List (K × V)) = iterRun bs b := by
        simp [iterRun]
      have h2 : iterNext (b :: bs) ([] : List (K × V)) = iterNext bs b :=
        rfl
      rw [h1, h2]
      exact ih b

theorem iterRun_flatten (bs : List (List (K × V))) (cur : List (K × V)) :
    iterRun bs cur = cur ++ bs.flatten := by
  induction bs generalizing cur with
  | nil =>
    induction cur with
    | nil => simp [iterRun]
    | cons e rest ih => simp [iterRun, ih]
  | cons b bs ih =>
    induction cur with
    | nil =>
      have h1 : iterRun (b :: bs) ([] : List (K × V)) = iterRun bs b := by
        simp [iterRun]
      rw [h1, ih b, List.flatten_cons]
      simp
    | cons e rest ihc =>
      have h1 : iterRun (b :: bs) (e :: rest) =
          e :: iterRun (b :: bs) rest := by
        simp [iterRun]
      rw [h1, ihc]
      simp

/-- Claim C5: after any sequence of operations every stored key is unique
across the whole table — the list of keys over all chains has no
duplicate, equivalently every key occurs in at most one entry. -/
theorem c5_key_uniqueness (hash : K → Nat) (ops : List (Op K V)) :
    (((runOps hash ops).entries).map Prod.fst).Nodup ∧
      ∀ k : K, (((runOps hash ops).entries).map Prod.fst).count k ≤ 1 := by
  have h := (inv_runOps hash ops).2.2.2
  exact ⟨h, fun k => List.nodup_iff_count_le_one.1 h k⟩

/-- Claim C6: `resize` on any reachable table doubles the capacity, leaves
`len` unchanged, moves exactly the existing entries (a permutation: none
lost, none created, keys and values unchanged), places every entry in the
bucket `hash(key) mod new_capacity`, and every key's `get` result is
unchanged across the resize. -/
theorem c6_resize_correct (hash : K → Nat) (ops : List (Op K V))
    (key : K) :
    ((runOps hash ops).resize hash).capacity =
        (runOps hash ops).capacity * 2 ∧
      ((runOps hash ops).resize hash).len = (runOps hash ops).len ∧
      (((runOps hash ops).resize hash).entries).Perm
        ((runOps hash ops).entries) ∧
      (∀ i : Nat, ∀ e ∈ ((runOps hash ops).resize hash).buckets.getD i [],
        hash e.1 % ((runOps hash ops).resize hash).capacity = i) ∧
      ((runOps hash ops).resize hash).get hash key =
        (runOps hash ops).get hash key := by
  have hinv := inv_runOps hash ops
  have hinv2 := inv_resize hinv
  have hperm := resize_entries_perm hash (runOps hash ops)
    (capacity_pos hinv)
  exact ⟨rfl, rfl, hperm, hinv2.2.2.1, get_congr hinv2 hinv hperm key⟩

/-- Claim C7: after every reachable operation sequence the bucket array's
length equals the `capacity` field; the capacity is `16 * 2 ^ n` (a power
of two starting at 16 on `new`); remove never changes it and one further
insert doubles it exactly when the pre-insert `size` is at least
`capacity * 3 / 4` — which equals the exact rational `3/4 * capacity`
since `4` divides the capacity — the growth happening before the new key
is placed. -/
theorem c7_capacity_invariant (hash : K → Nat) (ops : List (Op K V)) :
    (runOps hash ops).buckets.length = (runOps hash ops).capacity ∧
      (∃ n : Nat, (runOps hash ops).capacity = 16 * 2 ^ n) ∧
      (HashMap.new : HashMap K V).capacity = 16 ∧
      ((runOps hash ops).capacity * 3 / 4) * 4 =
        (runOps hash ops).capacity * 3 ∧
      (∀ (k : K) (v : V),
        ((runOps hash ops).insert hash k v).2.capacity =
          if (runOps hash ops).size ≥ (runOps hash ops).capacity * 3 / 4
          then (runOps hash ops).capacity * 2
          else (runOps hash ops).capacity) ∧
      (∀ k : K, ((runOps hash ops).remove hash k).2.capacity =
        (runOps hash ops).capacity) := by
  obtain ⟨hlen, ⟨n, hn⟩, hplaced, hnd⟩ := inv_runOps hash ops
  refine ⟨hlen, ⟨n, hn⟩, rfl, ?_, ?_, ?_⟩
  · rw [hn]
    have h48 : 16 * 2 ^ n * 3 = 4 * (12 * 2 ^ n) := by ring
    rw [h48, Nat.mul_div_cancel_left _ (by norm_num)]
    ring
  · intro k v
    rw [HashMap.insert, insertPost_capacity]
    by_cases hc : (runOps hash ops).size ≥
        (runOps hash ops).capacity * 3 / 4
    · rw [if_pos hc, if_pos hc]
      rfl
    · rw [if_neg hc, if_neg hc]
  · intro k
    exact remove_capacity hash _ k

/-- Claim C8: running the iterator from its initial state (`bucket_idx =
0`, no current entry) yields exactly the table's entry list — buckets in
index order `0..capacity`, each chain head-first, every live entry exactly
once and none twice, terminating with `none` — and each single `iterNext`
step agrees with `Iter::next` (yield the current entry if any, else
advance to the next bucket, else stop). -/
theorem c8_iterator_complete (hash : K → Nat) (ops : List (Op K V)) :
    iterRun ((runOps hash ops).iter).1 ((runOps hash ops).iter).2 =
        (runOps hash ops).entries ∧
      (∀ (bs : List (List (K × V))) (cur : List (K × V)),
        iterRun bs cur = match iterNext bs cur with
          | none => []
          | some (e, s) => e :: iterRun s.1 s.2) := by
  refine ⟨?_, iterRun_step⟩
  rw [show ((runOps hash ops).iter).1 = (runOps hash ops).buckets from rfl,
    show ((runOps hash ops).iter).2 = ([] : List (K × V)) from rfl,
    iterRun_flatten]
  simp [HashMap.entries]

/-- Claim C9: `get` and `get_mut` do not mutate the table (the embedding
of `get` is a pure function of the state and `get_mut` returns the state
unchanged), and both return the value of the first entry of the chain at
`hash key % capacity` whose key equals the probe, `none` when no entry of
that chain matches. -/
theorem c9_get_pure_first_match (hash : K → Nat) (m : HashMap K V)
    (key : K) :
    (m.get_mut hash key).2 = m ∧
      (m.get_mut hash key).1 = m.get hash key ∧
      m.get hash key =
        ((m.buckets.getD (hash key % m.capacity) []).find?
            (fun e => decide (e.1 = key))).map Prod.snd :=
  ⟨rfl, chainGetMut_eq_chainGet key _, chainGet_eq_find key _⟩

/-- Claim C10: frame property — on any reachable table, an insert that
does not trigger a resize (pre-insert `size < capacity * 3 / 4`) and
every remove call, unconditionally, touch at most the bucket at
`hash key % capacity`: every other bucket slot's chain and the `capacity`
field are unchanged. -/
theorem c10_frame (hash : K → Nat) (ops : List (Op K V)) (key : K) (v : V)
    (j : Nat)
    (hj : j ≠ hash key % (runOps hash ops).capacity) :
    ((runOps hash ops).size < (runOps hash ops).capacity * 3 / 4 →
      ((runOps hash ops).insert hash key v).2.buckets.getD j [] =
          (runOps hash ops).buckets.getD j [] ∧
        ((runOps hash ops).insert hash key v).2.capacity =
          (runOps hash ops).capacity) ∧
      (((runOps hash ops).remove hash key).2.buckets.getD j [] =
          (runOps hash ops).buckets.getD j [] ∧
        ((runOps hash ops).remove hash key).2.capacity =
          (runOps hash ops).capacity) := by
  refine ⟨?_, remove_getD_ne hash _ key j hj,
    remove_capacity hash _ key⟩
  intro hlt
  have hni : ¬ ((runOps hash ops).size ≥
      (runOps hash ops).capacity * 3 / 4) := by omega
  constructor
  · rw [HashMap.insert, if_neg hni]
    exact insertPost_getD_ne hash _ key v j hj
  · rw [HashMap.insert, if_neg hni, insertPost_capacity]

/-- Witness for `c10_frame`: the empty operation sequence (a fresh table),
key `0`, value `5`, bucket `1`. -/
theorem c10_frame_witness :
    ((1 : Nat) ≠ hashId 0 %
        (runOps hashId ([] : List (Op Nat Nat))).capacity) ∧
      (((runOps hashId ([] : List (Op Nat Nat))).size <
          (runOps hashId ([] : List (Op Nat Nat))).capacity * 3 / 4 →
        ((runOps hashId ([] : List (Op Nat Nat))).insert hashId
              0 5).2.buckets.getD 1 [] =
            (runOps hashId ([] : List (Op Nat Nat))).buckets.getD 1 [] ∧
          ((runOps hashId ([] : List (Op Nat Nat))).insert hashId
              0 5).2.capacity =
            (runOps hashId ([] : List (Op Nat Nat))).capacity) ∧
      (((runOps hashId ([] : List (Op Nat Nat))).remove hashId
            0).2.buckets.getD 1 [] =
          (runOps hashId ([] : List (Op Nat Nat))).buckets.getD 1 [] ∧
        ((runOps hashId ([] : List (Op Nat Nat))).remove hashId
            0).2.capacity =
          (runOps hashId ([] : List (Op Nat Nat))).capacity)) :=
  ⟨by decide, c10_frame hashId [] 0 5 1 (by decide)⟩

end HashVerify
